import Mathlib

/-!
Verification development for `apiFinder.py`, a reconnaissance utility that mines
API-like endpoint paths from the scripts referenced by a web page.

The Python source is shallowly embedded:
presently pure functions (`DefaultParsed.clean`, the recognition grammar
`DEFAULT_RULES` driven by `extract_urls_from_js`) become executable Lean
functions over `String` / `List Char`; effectful code (`DefaultRequests.get`,
`process_target`, `load_custom`) is embedded by passing the outcome of the
external world (network responses, the import machinery) as an explicit
function argument, and Python `set` becomes `Finset`.
-/

namespace ApiFinder

/-! ## Normalizer: `DefaultParsed.clean`

Source line 141:
`cleaned = sorted(\x7bp.strip() for p in paths if p.strip()\x7d, key=lambda x: x)`
-/

/-- The whitespace set stripped by Python `str.strip()` (ASCII part). -/
def pySpace (c : Char) : Bool :=
  c = ' ' || c = '\t' || c = '\n' || c = '\r' || c = '\x0b' || c = '\x0c'

/-- Python `str.strip()` on the underlying character list: remove leading and
trailing whitespace. -/
def stripData (l : List Char) : List Char :=
  ((l.dropWhile pySpace).reverse.dropWhile pySpace).reverse

/-- Python `str.strip()`. -/
def pyStrip (s : String) : String := String.mk (stripData s.data)

/-- `DefaultParsed.clean`: trim every member, drop members that trim to empty,
deduplicate (the Python set comprehension), and sort ascending. The Python
`set` argument is modelled as a `Finset`. -/
def clean (paths : Finset String) : List String :=
  ((paths.filter (fun p => pyStrip p ≠ "")).image pyStrip).sort (· ≤ ·)

/-- `clean` applied to the set of members of a list (Python builds the set by
insertion; `List.toFinset` is the order-independent result). -/
def cleanList (l : List String) : List String := clean l.toFinset

/-! ## Fetcher: `DefaultRequests.get` (source lines 60-84)

The outcome of the underlying `self.session.get(url, ...)` call is passed in
as a `net` function; `transportError` stands for any raised requests
exception (connection error, timeout, ...). -/

/-- Outcome of the underlying HTTP request. -/
inductive HttpOutcome where
  | transportError : HttpOutcome
  | response : Nat → String → HttpOutcome

/-- `Response.raise_for_status()` raises exactly for status codes 400-599. -/
def raiseForStatus (status : Nat) : Bool := 400 ≤ status && status < 600

/-- `DefaultRequests.get`: on a transport error or a `raise_for_status`
exception the `except` block returns `None`; otherwise the response content is
returned. Totality of this function embeds the fact that no exception
escapes to the caller. -/
def defaultGet (net : String → Bool → HttpOutcome) (url : String)
    (verify_ssl : Bool) : Option String :=
  match net url verify_ssl with
  | .transportError => none
  | .response st content => if raiseForStatus st then none else some content

/-! ## Orchestrator: `process_target` (source lines 177-193) -/

/-- The two parser capabilities used by `process_target`
(`ParsedInterface` without `clean`, which `process_target` does not call). -/
structure ParsedIface where
  extract_scripts : String → List String
  extract_urls_from_js : String → List String

/-- The fetch capability used by `process_target` (`RequestsInterface.get`);
`none` is a failed fetch. -/
structure RequestsIface where
  get : String → Bool → Option String

/-- One iteration of the script-fetching loop body in `process_target`:
`js = f.result(); if js: found.update(parsed_inst.extract_urls_from_js(js))`.
A failed fetch (`None`) and an empty payload (falsy `b''`) both contribute
nothing. -/
def scriptContribution (parsed_inst : ParsedIface) (req_inst : RequestsIface)
    (verify_ssl : Bool) (js_url : String) : Finset String :=
  match req_inst.get js_url verify_ssl with
  | none => ∅
  | some js => if js = "" then ∅ else (parsed_inst.extract_urls_from_js js).toFinset

/-- `process_target`. The stdlib `urljoin` is passed as a parameter. The
thread pool collects each script's candidates as the futures complete and
unions them into one set; this is modelled as a fold of set unions over the
script list (set union makes completion order irrelevant). `if not html`
is true both for `None` and for an empty payload. -/
def process_target (url : String) (parsed_inst : ParsedIface)
    (req_inst : RequestsIface) (urljoin : String → String → String)
    (verify_ssl : Bool) : Finset String :=
  match req_inst.get url verify_ssl with
  | none => ∅
  | some html =>
    if html = "" then ∅
    else
      ((parsed_inst.extract_scripts html).map (fun s => urljoin url s)).foldr
        (fun js_url acc => scriptContribution parsed_inst req_inst verify_ssl js_url ∪ acc) ∅

/-! ## ExtensionLoader: `load_custom` (source lines 148-174) -/

/-- A loaded Python module: its attribute table (attribute name to the
identifier of the class bound there). -/
structure PyModule where
  attrs : String → Option String

/-- The parser implementation chosen by `load_custom`. -/
inductive ParsedCls where
  | defaultParsed : ParsedCls
  | customParsed : String → ParsedCls
deriving DecidableEq

/-- The request implementation chosen by `load_custom`. -/
inductive ReqCls where
  | defaultRequests : ReqCls
  | customRequests : String → ReqCls
deriving DecidableEq

/-- `load_custom`. The import machinery (both the `.py` file branch and the
`importlib.import_module` branch) is modelled by `importMod`; `none` means
the import raised (nonexistent file or module), which the `except` block
turns into the default pair. `if not path` is true for `None` and for `""`;
`if cls_names[i]` likewise guards `getattr`, whose third argument supplies
the default class when the symbol is missing. -/
def load_custom (importMod : String → Option PyModule) (path : Option String)
    (cls_names : Option String × Option String) : ParsedCls × ReqCls :=
  match path with
  | none => (.defaultParsed, .defaultRequests)
  | some p =>
    if p = "" then (.defaultParsed, .defaultRequests)
    else
      match importMod p with
      | none => (.defaultParsed, .defaultRequests)
      | some m =>
        let parsed : ParsedCls :=
          match cls_names.1 with
          | some pn =>
            if pn = "" then .defaultParsed
            else
              match m.attrs pn with
              | some cid => .customParsed cid
              | none => .defaultParsed
          | none => .defaultParsed
        let req : ReqCls :=
          match cls_names.2 with
          | some rn =>
            if rn = "" then .defaultRequests
            else
              match m.attrs rn with
              | some cid => .customRequests cid
              | none => .defaultRequests
          | none => .defaultRequests
        (parsed, req)

/-! ## CLI wiring relevant to the worker pool (source lines 187 and 203) -/

/-- The CLI options parsed by `main` that concern this development:
`-w` alias `--workers` (argparse default 10, help text says thread count) and
`--ssl`. -/
structure CliArgs where
  workers : Nat
  ssl : Bool

/-- The `max_workers` argument that `process_target` passes to
`ThreadPoolExecutor`: the source writes `ThreadPoolExecutor()` with no
argument, so no CLI field reaches the pool and the bound is the library
default. -/
def poolMaxWorkersArg (_a : CliArgs) : Option Nat := none

/-! ## Lemmas about stripping -/

lemma dropWhile_dropWhile (p : Char → Bool) (l : List Char) :
    (l.dropWhile p).dropWhile p = l.dropWhile p := by
  induction l with
  | nil => rfl
  | cons c t ih =>
    cases h : p c with
    | true => simp [List.dropWhile_cons, h, ih]
    | false => simp [List.dropWhile_cons, h]

lemma exists_append_dropWhile (p : Char → Bool) (l : List Char) :
    ∃ u, l = u ++ l.dropWhile p := by
  induction l with
  | nil => exact ⟨[], rfl⟩
  | cons c t ih =>
    cases h : p c with
    | true =>
      obtain ⟨u, hu⟩ := ih
      refine ⟨c :: u, ?_⟩
      simp only [List.dropWhile_cons, h, if_true, List.cons_append]
      exact congrArg (c :: ·) hu
    | false => exact ⟨[], by simp [List.dropWhile_cons, h]⟩

lemma dropWhile_head_false (p : Char → Bool) (l : List Char) (c : Char) (t : List Char)
    (h : l.dropWhile p = c :: t) : p c = false := by
  induction l with
  | nil => simp [List.dropWhile] at h
  | cons a s ih =>
    rw [List.dropWhile_cons] at h
    cases ha : p a with
    | true => rw [if_pos ha] at h; exact ih h
    | false =>
      rw [if_neg (by simp [ha])] at h
      cases h
      exact ha

lemma stripData_idem (l : List Char) : stripData (stripData l) = stripData l := by
  obtain ⟨u, hu⟩ := exists_append_dropWhile pySpace (l.dropWhile pySpace).reverse
  have hAeq : l.dropWhile pySpace = stripData l ++ u.reverse := by
    have h2 := congrArg List.reverse hu
    simpa [stripData, List.reverse_append] using h2
  have h1 : (stripData l).dropWhile pySpace = stripData l := by
    cases hS : stripData l with
    | nil => simp
    | cons c t =>
      have hc : pySpace c = false := by
        apply dropWhile_head_false pySpace l c (t ++ u.reverse)
        rw [hAeq, hS]; rfl
      rw [List.dropWhile_cons, hc]
      simp
  calc stripData (stripData l)
      = (((stripData l).dropWhile pySpace).reverse.dropWhile pySpace).reverse := rfl
    _ = ((stripData l).reverse.dropWhile pySpace).reverse := by rw [h1]
    _ = (((l.dropWhile pySpace).reverse.dropWhile pySpace).dropWhile pySpace).reverse := by
          simp [stripData, List.reverse_reverse]
    _ = ((l.dropWhile pySpace).reverse.dropWhile pySpace).reverse := by
          rw [dropWhile_dropWhile]
    _ = stripData l := rfl

lemma pyStrip_idem (s : String) : pyStrip (pyStrip s) = pyStrip s := by
  show String.mk (stripData (stripData s.data)) = String.mk (stripData s.data)
  rw [stripData_idem]

lemma mem_clean {paths : Finset String} {s : String} (hs : s ∈ clean paths) :
    pyStrip s = s ∧ s ≠ "" := by
  rw [clean, Finset.mem_sort] at hs
  obtain ⟨p, hp, rfl⟩ := Finset.mem_image.mp hs
  exact ⟨pyStrip_idem p, (Finset.mem_filter.mp hp).2⟩

/-! ## Claim theorems for the Normalizer -/

/-- C1: for every input set, the Normalizer returns a sequence whose members
are each fixed by trimming, none empty, with no duplicates under exact string
equality, sorted ascending lexicographically; and the output is a function of
the input set only: any two insertion orders (permutations) of the same
members give the same output. -/
theorem clean_normalizer (paths : Finset String) (l₁ l₂ : List String)
    (hperm : l₁.Perm l₂) :
    (∀ s ∈ clean paths, pyStrip s = s) ∧
    (∀ s ∈ clean paths, s ≠ "") ∧
    (clean paths).Nodup ∧
    List.Sorted (· < ·) (clean paths) ∧
    cleanList l₁ = cleanList l₂ := by
  refine ⟨fun s hs => (mem_clean hs).1, fun s hs => (mem_clean hs).2,
    Finset.sort_nodup _ _, Finset.sort_sorted_lt _, ?_⟩
  unfold cleanList
  rw [List.toFinset_eq_of_perm l₁ l₂ hperm]

/-- Witness for C1 at a concrete input. -/
theorem clean_normalizer_witness :
    (∀ s ∈ clean {" a ", "a", ""}, pyStrip s = s) ∧
    (∀ s ∈ clean {" a ", "a", ""}, s ≠ "") ∧
    (clean {" a ", "a", ""}).Nodup ∧
    List.Sorted (· < ·) (clean {" a ", "a", ""}) ∧
    cleanList ["x", "y"] = cleanList ["y", "x"] :=
  clean_normalizer {" a ", "a", ""} ["x", "y"] ["y", "x"] (List.Perm.swap "y" "x" [])

/-- C9: the Normalizer is idempotent: cleaning the set of members of
`clean paths` returns `clean paths` itself. -/
theorem clean_idempotent (paths : Finset String) :
    cleanList (clean paths) = clean paths := by
  have hmem : ∀ s ∈ (clean paths).toFinset, pyStrip s = s ∧ s ≠ "" :=
    fun s hs => mem_clean (List.mem_toFinset.mp hs)
  have hfilter : (clean paths).toFinset.filter (fun p => pyStrip p ≠ "")
      = (clean paths).toFinset := by
    apply Finset.filter_true_of_mem
    intro s hs
    rw [(hmem s hs).1]
    exact (hmem s hs).2
  have himage : (clean paths).toFinset.image pyStrip = (clean paths).toFinset := by
    have heq : (clean paths).toFinset.image pyStrip = (clean paths).toFinset.image id :=
      Finset.image_congr (fun s hs => (hmem s (by simpa using hs)).1)
    rw [heq, Finset.image_id]
  show clean (clean paths).toFinset = clean paths
  rw [clean, hfilter, himage]
  exact (List.toFinset_sort (· ≤ ·) (Finset.sort_nodup _ _)).mpr (Finset.sort_sorted _ _)

/-! ## Claim theorems for the Fetcher -/

/-- C6: `DefaultRequests.get` returns no payload (and, being a total
function of the request outcome, raises nothing) whenever the underlying
request raises a transport error or the response status makes
`raise_for_status` raise (a 4xx/5xx non-success code); a payload is returned
only for a response that passes `raise_for_status`, and it is that
response's content. -/
theorem defaultGet_error_handling (net : String → Bool → HttpOutcome)
    (url : String) (ssl : Bool) :
    (net url ssl = .transportError → defaultGet net url ssl = none) ∧
    (∀ st c, net url ssl = .response st c → raiseForStatus st = true →
      defaultGet net url ssl = none) ∧
    (∀ payload, defaultGet net url ssl = some payload →
      ∃ st c, net url ssl = .response st c ∧ raiseForStatus st = false ∧ payload = c) := by
  refine ⟨fun h => by simp [defaultGet, h], fun st c h hr => by simp [defaultGet, h, hr], ?_⟩
  intro payload hp
  unfold defaultGet at hp
  cases hnet : net url ssl with
  | transportError => rw [hnet] at hp; simp at hp
  | response st c =>
    rw [hnet] at hp
    cases hr : raiseForStatus st with
    | true => simp [hr] at hp
    | false =>
      simp [hr] at hp
      exact ⟨st, c, rfl, hr, hp.symm⟩

/-- Witness for C6 at concrete outcomes. -/
theorem defaultGet_error_handling_witness :
    defaultGet (fun _ _ => HttpOutcome.transportError) "u" false = none ∧
    defaultGet (fun _ _ => HttpOutcome.response 404 "x") "u" false = none :=
  ⟨(defaultGet_error_handling (fun _ _ => HttpOutcome.transportError) "u" false).1 rfl,
   (defaultGet_error_handling (fun _ _ => HttpOutcome.response 404 "x") "u" false).2.1
     404 "x" rfl rfl⟩

/-! ## Claim theorems for the Orchestrator -/

/-- C5: a failed page fetch yields the empty set; on a successful page fetch
the result is a fold of per-script contributions in which a script whose
fetch fails contributes the empty set while the other scripts' contributions
are unchanged; and if every script fetch fails the target's result is the
empty set (no error: the function is total). -/
theorem process_target_fetch_isolation (url : String) (p : ParsedIface)
    (r : RequestsIface) (uj : String → String → String) (ssl : Bool) :
    (r.get url ssl = none → process_target url p r uj ssl = ∅) ∧
    (∀ html, r.get url ssl = some html → html ≠ "" →
      (process_target url p r uj ssl =
        ((p.extract_scripts html).map (fun s => uj url s)).foldr
          (fun js_url acc => scriptContribution p r ssl js_url ∪ acc) ∅) ∧
      (∀ js_url, r.get js_url ssl = none → scriptContribution p r ssl js_url = ∅)) ∧
    (∀ html, r.get url ssl = some html → html ≠ "" →
      (∀ s ∈ p.extract_scripts html, r.get (uj url s) ssl = none) →
      process_target url p r uj ssl = ∅) := by
  have hfold : ∀ L : List String, (∀ s ∈ L, r.get (uj url s) ssl = none) →
      (L.map (fun s => uj url s)).foldr
        (fun js_url acc => scriptContribution p r ssl js_url ∪ acc) ∅ = ∅ := by
    intro L hL
    induction L with
    | nil => rfl
    | cons a t ih =>
      simp only [List.map_cons, List.foldr_cons]
      rw [ih (fun s hs => hL s (List.mem_cons_of_mem a hs))]
      simp [scriptContribution, hL a (List.mem_cons_self a t)]
  refine ⟨fun h => by simp [process_target, h], ?_, ?_⟩
  · intro html hh hne
    refine ⟨by simp [process_target, hh, hne], ?_⟩
    intro js_url hj
    simp [scriptContribution, hj]
  · intro html hh hne hall
    simp only [process_target, hh, hne, if_false]
    exact hfold _ hall

/-- Witness for C5: one target, one failing page fetch and one page whose
only two scripts both fail. -/
theorem process_target_fetch_isolation_witness :
    process_target "t" ⟨fun _ => ["s1", "s2"], fun _ => ["/a"]⟩
      ⟨fun u _ => if u = "t" then some "<html>" else none⟩ (fun _ s => s) false = ∅ :=
  ((process_target_fetch_isolation "t" ⟨fun _ => ["s1", "s2"], fun _ => ["/a"]⟩
      ⟨fun u _ => if u = "t" then some "<html>" else none⟩ (fun _ s => s) false).2.2
    "<html>" (by simp) (by simp) (by intro s hs; fin_cases hs <;> simp))

/-- C10: `process_target` does not distinguish a successful page fetch with
an empty payload from a failed one: `if not html` is taken in both cases and
the empty set is returned without parsing. -/
theorem process_target_empty_payload (url : String) (p : ParsedIface)
    (r r' : RequestsIface) (uj : String → String → String) (ssl : Bool)
    (h : r.get url ssl = some "") (h' : r'.get url ssl = none) :
    process_target url p r uj ssl = ∅ ∧
    process_target url p r uj ssl = process_target url p r' uj ssl := by
  constructor
  · simp [process_target, h]
  · simp [process_target, h, h']

/-- Witness for C10 at concrete request instances. -/
theorem process_target_empty_payload_witness :
    process_target "t" ⟨fun _ => ["s"], fun _ => ["/a"]⟩ ⟨fun _ _ => some ""⟩
      (fun _ s => s) false = ∅ ∧
    process_target "t" ⟨fun _ => ["s"], fun _ => ["/a"]⟩ ⟨fun _ _ => some ""⟩
      (fun _ s => s) false =
    process_target "t" ⟨fun _ => ["s"], fun _ => ["/a"]⟩ ⟨fun _ _ => none⟩
      (fun _ s => s) false :=
  process_target_empty_payload "t" ⟨fun _ => ["s"], fun _ => ["/a"]⟩
    ⟨fun _ _ => some ""⟩ ⟨fun _ _ => none⟩ (fun _ s => s) false rfl rfl

/-! ## Claim theorems for the worker pool wiring -/

/-- C7 (code evaluation): the `-w` worker-count option parsed by `main`
never reaches the pool. `process_target` constructs `ThreadPoolExecutor()`
with no `max_workers` argument, so the value passed for `-w` cannot change
the pool bound: the argument is the same (`none`, i.e. the library default)
for every parsed option value. -/
theorem workers_option_not_wired :
    (∀ a b : CliArgs, poolMaxWorkersArg a = poolMaxWorkersArg b) ∧
    poolMaxWorkersArg ⟨1, false⟩ = none ∧ poolMaxWorkersArg ⟨10, false⟩ = none :=
  ⟨fun _ _ => rfl, rfl, rfl⟩

/-! ## Claim theorems for the ExtensionLoader -/

/-- C8: when importing the substitution source raises (nonexistent file path
or module name), `load_custom` returns exactly the built-in default pair,
the same value as when no source is given; hence any computation over the
returned pair (in particular a whole run on the same targets) is
identical. -/
theorem load_custom_fallback {α : Type} (importMod : String → Option PyModule)
    (p : String) (ns : Option String × Option String)
    (run : ParsedCls × ReqCls → α) (h : importMod p = none) :
    load_custom importMod (some p) ns = load_custom importMod none ns ∧
    load_custom importMod (some p) ns = (.defaultParsed, .defaultRequests) ∧
    run (load_custom importMod (some p) ns) = run (load_custom importMod none ns) := by
  have h1 : load_custom importMod (some p) ns = (.defaultParsed, .defaultRequests) := by
    by_cases hp : p = ""
    · simp [load_custom, hp]
    · simp [load_custom, hp, h]
  exact ⟨by rw [h1]; rfl, h1, by rw [h1]; rfl⟩

/-- Witness for C8 with a nonexistent source. -/
theorem load_custom_fallback_witness :
    load_custom (fun _ => none) (some "missing.py") (some "MyParsed", none) =
      load_custom (fun _ => none) none (some "MyParsed", none) ∧
    load_custom (fun _ => none) (some "missing.py") (some "MyParsed", none) =
      (.defaultParsed, .defaultRequests) ∧
    Prod.fst (load_custom (fun _ => none) (some "missing.py") (some "MyParsed", none)) =
      Prod.fst (load_custom (fun _ => none) none (some "MyParsed", none)) :=
  load_custom_fallback (fun _ => none) "missing.py" (some "MyParsed", none) Prod.fst rfl

/-! ## ScriptScanner: `DEFAULT_RULES` and `extract_urls_from_js`
(source lines 89-108 and 125-138)

The verbose-mode regular expression is embedded as an explicit backtracking
matcher. Each piece of the pattern maps to a function returning the list of
lengths it can consume, in backtracking priority order (greedy quantifiers
longest first, alternatives in written order); sequencing binds those lists.
`matchAt` then takes the first candidate for the capture group after which
the closing delimiter matches, exactly as the backtracking engine does, and
`finditerAux` scans left to right, resuming after each non-overlapping
match, collecting `group(1)`.

In Python verbose mode whitespace inside a character class is significant,
so the class on line 93 contains the space character. The source decodes the
script bytes as utf-8 with errors ignored; the embedding starts from the
decoded text. -/

/-- The single-quote character, written by code point. -/
def squote : Char := Char.ofNat 39

/-- Delimiter class on lines 90 and 106 of the pattern: a double or single
quote. -/
def isQuoteChar (c : Char) : Bool := c = '"' || c = squote

/-- Character class on line 93, the one character after the `/`, `../`,
`./` start: everything except quotes and the listed punctuation (note it
also excludes `/`, space and percent). -/
def class1 (c : Char) : Bool :=
  !(c = '"' || c = squote || c = '>' || c = '<' || c = ',' || c = ';' || c = '|' ||
    c = ' ' || c = '*' || c = '(' || c = ')' || c = '%' || c = '$' || c = '^' ||
    c = '/' || c = '\\' || c = '[' || c = ']')

/-- Character class on line 94, the remaining characters of the first
alternative: everything except quotes, angle brackets, comma, semicolon,
pipe and parentheses. -/
def class2 (c : Char) : Bool :=
  !(c = '"' || c = squote || c = '>' || c = '<' || c = ',' || c = ';' || c = '|' ||
    c = '(' || c = ')')

/-- Character class `a`-`z`, `A`-`Z`, `0`-`9`, underscore, dash, slash
(lines 96-97). -/
def wordSlash (c : Char) : Bool := c.isAlphanum || c = '_' || c = '-' || c = '/'

/-- Character class `a`-`z`, `A`-`Z`, `0`-`9`, underscore, dash
(line 101). -/
def wordDash (c : Char) : Bool := c.isAlphanum || c = '_' || c = '-'

/-- Character class of the query-remainder introducer on line 99: question
mark, pipe, or slash. -/
def remIntro (c : Char) : Bool := c = '?' || c = '|' || c = '/'

/-- Character class of the query-remainder body (lines 99 and 104):
everything except double quote, pipe, single quote. -/
def remChar (c : Char) : Bool := !(c = '"' || c = '|' || c = squote)

/-- Length of the maximal run of characters satisfying `p` at the head. -/
def runLen (p : Char → Bool) : List Char → Nat
  | [] => 0
  | c :: t => if p c then runLen p t + 1 else 0

/-- The list `[n, n-1, ..., 1]`: lengths a greedy quantifier tries, longest
first. -/
def countdown : Nat → List Nat
  | 0 => []
  | n + 1 => (n + 1) :: countdown n

/-- Candidate lengths of `p{1,}`. -/
def greedyPlus (p : Char → Bool) (s : List Char) : List Nat :=
  countdown (runLen p s)

/-- Candidate lengths of `p{0,}`. -/
def greedyStar (p : Char → Bool) (s : List Char) : List Nat :=
  countdown (runLen p s) ++ [0]

/-- Candidate lengths of `[a-zA-Z]{1,4}` (line 98). -/
def greedyAlpha14 (s : List Char) : List Nat :=
  countdown (min (runLen (fun c => c.isAlpha) s) 4)

/-- Candidate lengths of a single-character class. -/
def oneChar (p : Char → Bool) : List Char → List Nat
  | [] => []
  | c :: _ => if p c then [1] else []

/-- Does `w` occur at the head of `s`? -/
def startsList : List Char → List Char → Bool
  | [], _ => true
  | _ :: _, [] => false
  | a :: w, b :: s => a = b && startsList w s

/-- Candidate lengths of a literal word. -/
def strCand (w : List Char) (s : List Char) : List Nat :=
  if startsList w s then [w.length] else []

/-- Sequencing of two pattern pieces, preserving backtracking order. -/
def seqCands (f g : List Char → List Nat) (s : List Char) : List Nat :=
  (f s).flatMap (fun n => (g (s.drop n)).map (fun m => n + m))

/-- The start alternation on line 92: `/`, then `../`, then `./`. -/
def slashStart (s : List Char) : List Nat :=
  strCand ['/'] s ++ strCand ['.', '.', '/'] s ++ strCand ['.', '/'] s

/-- First alternative of the capture group (lines 92-94). -/
def branch1 (s : List Char) : List Nat :=
  seqCands slashStart (seqCands (oneChar class1) (greedyPlus class2)) s

/-- Extension alternation on line 98: one to four letters, or the literal
word `action`. -/
def extAlt2 (s : List Char) : List Nat :=
  greedyAlpha14 s ++ strCand ['a', 'c', 't', 'i', 'o', 'n'] s

/-- Optional query remainder on line 99: an introducer from `remIntro`
followed by any run of `remChar`, or nothing. -/
def rem2 (s : List Char) : List Nat :=
  seqCands (oneChar remIntro) (greedyStar remChar) s ++ [0]

/-- Second alternative of the capture group (lines 96-99). -/
def branch2 (s : List Char) : List Nat :=
  seqCands (greedyPlus wordSlash)
    (seqCands (strCand ['/'])
      (seqCands (greedyPlus wordSlash)
        (seqCands (strCand ['.'])
          (seqCands extAlt2 rem2)))) s

/-- The extension allowlist of the third alternative (lines 102-103), in
the pattern's alternation order. -/
def extKeywords : List (List Char) :=
  [['p', 'h', 'p'], ['a', 's', 'p'], ['a', 's', 'p', 'x'], ['j', 's', 'p'],
   ['j', 's', 'o', 'n'], ['a', 'c', 't', 'i', 'o', 'n'], ['h', 't', 'm', 'l'],
   ['j', 's'], ['t', 'x', 't'], ['x', 'm', 'l']]

/-- Extension alternation of the third alternative. -/
def extAlt3 (s : List Char) : List Nat :=
  extKeywords.flatMap (fun w => strCand w s)

/-- Optional query remainder on line 104: `?` followed by any run of
`remChar`, or nothing. -/
def rem3 (s : List Char) : List Nat :=
  seqCands (strCand ['?']) (greedyStar remChar) s ++ [0]

/-- Third alternative of the capture group (lines 101-104). -/
def branch3 (s : List Char) : List Nat :=
  seqCands (greedyPlus wordDash)
    (seqCands (strCand ['.']) (seqCands extAlt3 rem3)) s

/-- All candidate lengths of the capture group, in alternation order. -/
def groupCands (s : List Char) : List Nat :=
  branch1 s ++ branch2 s ++ branch3 s

/-- Does the closing delimiter match at offset `n` of `body`? -/
def quoteAt (body : List Char) (n : Nat) : Bool :=
  match body.drop n with
  | q :: _ => isQuoteChar q
  | [] => false

/-- One match attempt of `RULE` at the current position: an opening quote,
then the first group candidate after which a closing quote stands. Returns
the group length and the captured text. -/
def matchAt : List Char → Option (Nat × List Char)
  | [] => none
  | c :: body =>
    if isQuoteChar c then
      match (groupCands body).find? (quoteAt body) with
      | some n => some (n, body.take n)
      | none => none
    else none

/-- `RULE.finditer` collecting `group(1)`: scan left to right, resume after
each match. `fuel` bounds the number of scanning steps; each step consumes
at least one character, so the input length is always enough fuel. -/
def finditerAux : Nat → List Char → List (List Char)
  | 0, _ => []
  | _ + 1, [] => []
  | fuel + 1, c :: rest =>
    match matchAt (c :: rest) with
    | some (n, grp) => grp :: finditerAux fuel (rest.drop (n + 1))
    | none => finditerAux fuel rest

/-- All captured groups of `RULE.finditer` over a character list. -/
def finditer (s : List Char) : List (List Char) :=
  finditerAux s.length s

/-- `DefaultParsed.extract_urls_from_js` on the decoded script text:
`[m.group(1) for m in RULE.finditer(text)]`. -/
def extract_urls_from_js (js : String) : List String :=
  (finditer js.data).map String.mk

/-! ## Lemmas about the matcher combinators -/

lemma startsList_append_self (w z : List Char) : startsList w (w ++ z) = true := by
  induction w with
  | nil => rfl
  | cons a w ih => simp [startsList, ih]

lemma strCand_append_self (w z : List Char) : strCand w (w ++ z) = [w.length] := by
  simp [strCand, startsList_append_self]

lemma runLen_all_append (p : Char → Bool) (xs : List Char) (d : Char) (ds : List Char)
    (hxs : ∀ c ∈ xs, p c = true) (hd : p d = false) :
    runLen p (xs ++ d :: ds) = xs.length := by
  induction xs with
  | nil => simp [runLen, hd]
  | cons a t ih =>
    have ha : p a = true := hxs a (List.mem_cons_self a t)
    simp only [List.cons_append, runLen, ha, if_true, List.length_cons]
    exact congrArg (· + 1) (ih (fun c hc => hxs c (List.mem_cons_of_mem a hc)))

lemma mem_countdown {x n : Nat} : x ∈ countdown n ↔ 1 ≤ x ∧ x ≤ n := by
  induction n with
  | zero =>
    simp only [countdown, List.not_mem_nil, false_iff]
    omega
  | succ n ih =>
    simp only [countdown, List.mem_cons, ih]
    omega

lemma countdown_split (m k : Nat) :
    ∃ pre, countdown (m + k) = pre ++ countdown m ∧ ∀ x ∈ pre, m < x ∧ x ≤ m + k := by
  induction k with
  | zero => exact ⟨[], by simp⟩
  | succ k ih =>
    obtain ⟨pre, hpre, hmem⟩ := ih
    have hstep : countdown (m + (k + 1)) = (m + k + 1) :: countdown (m + k) := rfl
    refine ⟨(m + k + 1) :: pre, ?_, ?_⟩
    · rw [hstep, hpre, List.cons_append]
    · intro x hx
      rcases List.mem_cons.mp hx with rfl | h
      · omega
      · have := hmem x h; omega

lemma greedyStar_head (p : Char → Bool) (s : List Char) :
    ∃ t, greedyStar p s = runLen p s :: t := by
  unfold greedyStar
  cases h : runLen p s with
  | zero => exact ⟨[], rfl⟩
  | succ n =>
    refine ⟨countdown n ++ [0], ?_⟩
    show ((n + 1) :: countdown n) ++ [0] = (n + 1) :: (countdown n ++ [0])
    rw [List.cons_append]

lemma seqCands_nil_left (f g : List Char → List Nat) (s : List Char) (h : f s = []) :
    seqCands f g s = [] := by
  simp [seqCands, h]

lemma flatMap_nil_of_all {l : List Nat} {h : Nat → List Nat}
    (hl : ∀ x ∈ l, h x = []) : l.flatMap h = [] := by
  induction l with
  | nil => rfl
  | cons a t ih =>
    rw [List.flatMap_cons, hl a (List.mem_cons_self a t),
      ih (fun x hx => hl x (List.mem_cons_of_mem a hx))]
    rfl

lemma seqCands_nil (f g : List Char → List Nat) (s : List Char)
    (h : ∀ x ∈ f s, g (s.drop x) = []) : seqCands f g s = [] := by
  unfold seqCands
  exact flatMap_nil_of_all (fun x hx => by rw [h x hx]; rfl)

lemma quoteAt_add (s : List Char) (n y : Nat) :
    quoteAt s (n + y) = quoteAt (s.drop n) y := by
  have h : (s.drop n).drop y = s.drop (n + y) := by
    rw [List.drop_drop, Nat.add_comm]
  unfold quoteAt
  rw [← h]

lemma flatMap_junk (g : List Char → List Nat) (s : List Char) (junkF : List Nat)
    (hjunk : ∀ x ∈ junkF,
      g (s.drop x) = [] ∨ (g (s.drop x) = [0] ∧ quoteAt s x = false)) :
    ∃ J0, junkF.flatMap (fun x => (g (s.drop x)).map (fun m2 => x + m2)) = J0 ∧
      ∀ y ∈ J0, quoteAt s y = false := by
  induction junkF with
  | nil => exact ⟨[], rfl, by simp⟩
  | cons a t ih =>
    obtain ⟨J0, hJ0, hJ0f⟩ := ih (fun x hx => hjunk x (List.mem_cons_of_mem a hx))
    rcases hjunk a (List.mem_cons_self a t) with h | ⟨h, hq⟩
    · refine ⟨J0, ?_, hJ0f⟩
      rw [List.flatMap_cons, h, hJ0]
      rfl
    · refine ⟨a :: J0, ?_, ?_⟩
      · rw [List.flatMap_cons, h, hJ0]
        rfl
      · intro y hy
        rcases List.mem_cons.mp hy with rfl | hy2
        · exact hq
        · exact hJ0f y hy2

lemma seq_decomp (f g : List Char → List Nat) (s : List Char)
    (junkF J : List Nat) (n m : Nat) (t u : List Nat)
    (hf : f s = junkF ++ n :: t)
    (hjunk : ∀ x ∈ junkF,
      g (s.drop x) = [] ∨ (g (s.drop x) = [0] ∧ quoteAt s x = false))
    (hg : g (s.drop n) = J ++ m :: u)
    (hJ : ∀ y ∈ J, quoteAt (s.drop n) y = false) :
    ∃ J2 v, seqCands f g s = J2 ++ (n + m) :: v ∧
      ∀ y ∈ J2, quoteAt s y = false := by
  obtain ⟨J0, hJ0, hJ0f⟩ := flatMap_junk g s junkF hjunk
  refine ⟨J0 ++ J.map (fun m2 => n + m2),
    u.map (fun m2 => n + m2) ++
      t.flatMap (fun x => (g (s.drop x)).map (fun m2 => x + m2)), ?_, ?_⟩
  · unfold seqCands
    rw [hf, List.flatMap_append, hJ0, List.flatMap_cons, hg]
    simp [List.map_append, List.append_assoc]
  · intro y hy
    rcases List.mem_append.mp hy with h | h
    · exact hJ0f y h
    · obtain ⟨y0, hy0, rfl⟩ := List.mem_map.mp h
      rw [quoteAt_add]
      exact hJ y0 hy0

lemma find?_append_none (p : Nat → Bool) (junk l : List Nat)
    (h : ∀ x ∈ junk, p x = false) : (junk ++ l).find? p = l.find? p := by
  induction junk with
  | nil => rfl
  | cons a t ih =>
    rw [List.cons_append,
      List.find?_cons_of_neg _ (by simp [h a (List.mem_cons_self a t)]),
      ih (fun x hx => h x (List.mem_cons_of_mem a hx))]

/-! ## Lemmas about `matchAt` and `finditer` -/

lemma matchAt_shape (lit rest : List Char) (junk v : List Nat)
    (hg : groupCands (lit ++ '"' :: rest) = junk ++ lit.length :: v)
    (hjunk : ∀ x ∈ junk, quoteAt (lit ++ '"' :: rest) x = false) :
    matchAt ('"' :: (lit ++ '"' :: rest)) = some (lit.length, lit) := by
  have hq : quoteAt (lit ++ '"' :: rest) lit.length = true := by
    unfold quoteAt
    rw [List.drop_left]
    rfl
  show (if isQuoteChar '"' then
      match (groupCands (lit ++ '"' :: rest)).find? (quoteAt (lit ++ '"' :: rest)) with
      | some n => some (n, (lit ++ '"' :: rest).take n)
      | none => none
    else none) = some (lit.length, lit)
  rw [if_pos (by decide : isQuoteChar '"' = true), hg,
    find?_append_none _ junk _ hjunk, List.find?_cons_of_pos _ hq]
  show some (lit.length, (lit ++ '"' :: rest).take lit.length) = some (lit.length, lit)
  rw [List.take_left]

lemma finditerAux_fuel : ∀ (f₁ f₂ : Nat) (s : List Char), s.length ≤ f₁ → s.length ≤ f₂ →
    finditerAux f₁ s = finditerAux f₂ s := by
  intro f₁
  induction f₁ with
  | zero =>
    intro f₂ s h₁ _
    have hs : s = [] := List.length_eq_zero.mp (Nat.le_zero.mp h₁)
    subst hs
    cases f₂ <;> rfl
  | succ f ih =>
    intro f₂ s h₁ h₂
    cases s with
    | nil => cases f₂ <;> rfl
    | cons c rest =>
      cases f₂ with
      | zero => simp at h₂
      | succ f₂p =>
        have hr₁ : rest.length ≤ f := by simp at h₁; omega
        have hr₂ : rest.length ≤ f₂p := by simp at h₂; omega
        show (match matchAt (c :: rest) with
            | some (n, grp) => grp :: finditerAux f (rest.drop (n + 1))
            | none => finditerAux f rest) =
          (match matchAt (c :: rest) with
            | some (n, grp) => grp :: finditerAux f₂p (rest.drop (n + 1))
            | none => finditerAux f₂p rest)
        cases hm : matchAt (c :: rest) with
        | none => exact ih f₂p rest hr₁ hr₂
        | some pr =>
          obtain ⟨n, grp⟩ := pr
          have hd : (rest.drop (n + 1)).length ≤ rest.length := by
            rw [List.length_drop]; omega
          exact congrArg (grp :: ·)
            (ih f₂p (rest.drop (n + 1)) (le_trans hd hr₁) (le_trans hd hr₂))

lemma finditer_quoted (lit rest : List Char) (junk v : List Nat)
    (hg : groupCands (lit ++ '"' :: rest) = junk ++ lit.length :: v)
    (hjunk : ∀ x ∈ junk, quoteAt (lit ++ '"' :: rest) x = false) :
    finditer ('"' :: (lit ++ '"' :: rest)) = lit :: finditer rest := by
  have hm := matchAt_shape lit rest junk v hg hjunk
  have hdrop : (lit ++ '"' :: rest).drop (lit.length + 1) = rest := by
    have hsplit : lit ++ '"' :: rest = (lit ++ ['"']) ++ rest := by simp
    rw [hsplit]
    exact List.drop_left' (by simp)
  show finditerAux ('"' :: (lit ++ '"' :: rest)).length ('"' :: (lit ++ '"' :: rest)) =
    lit :: finditer rest
  rw [List.length_cons]
  show (match matchAt ('"' :: (lit ++ '"' :: rest)) with
      | some (n, grp) =>
        grp :: finditerAux (lit ++ '"' :: rest).length ((lit ++ '"' :: rest).drop (n + 1))
      | none => finditerAux (lit ++ '"' :: rest).length (lit ++ '"' :: rest)) =
    lit :: finditer rest
  rw [hm]
  show lit :: finditerAux (lit ++ '"' :: rest).length ((lit ++ '"' :: rest).drop (lit.length + 1)) =
    lit :: finditer rest
  rw [hdrop]
  exact congrArg (lit :: ·)
    (finditerAux_fuel (lit ++ '"' :: rest).length rest.length rest (by simp; omega) le_rfl)

lemma extract_quoted (lit rest : List Char) (junk v : List Nat)
    (hg : groupCands (lit ++ '"' :: rest) = junk ++ lit.length :: v)
    (hjunk : ∀ x ∈ junk, quoteAt (lit ++ '"' :: rest) x = false) :
    extract_urls_from_js (String.mk ('"' :: (lit ++ '"' :: rest))) =
      String.mk lit :: extract_urls_from_js (String.mk rest) := by
  show (finditer ('"' :: (lit ++ '"' :: rest))).map String.mk =
    String.mk lit :: (finditer rest).map String.mk
  rw [finditer_quoted lit rest junk v hg hjunk, List.map_cons]

/-! ## Claim theorems for the first grammar shape -/

/-- C2 counterexample: the claimed denylist does not govern the characters
after the first one. The literal `/a b` contains a space (a member of the
claimed denylist), yet the scanner yields it, because the space is only
excluded at the first position after the `/` start; and a script merely
containing a quoted literal need not yield it, because a preceding match may
consume its opening quote: in `"/ab"/cd"` the quoted `/cd` is not yielded. -/
theorem slash_literal_denylist_counterexample :
    extract_urls_from_js "\"/a b\"" = ["/a b"] ∧
    extract_urls_from_js "\"/ab\"/cd\"" = ["/ab"] := by
  constructor <;> decide

/-- C2 (amended): for a script beginning with a quoted literal that starts
with `/`, `./` or `../`, the literal is yielded without its quotes whenever
its first character after the prefix avoids the extended first-position
denylist `class1` (the claimed set plus `/` and the quote characters) and
its remaining characters (at least one) avoid the smaller denylist `class2`
(quotes, angle brackets, comma, semicolon, pipe, parentheses); scanning then
resumes after the closing quote. In particular `"/api/v1/users"` yields
exactly `/api/v1/users`. -/
theorem slash_literal_yielded (pre : List Char) (c : Char) (cs rest : List Char)
    (hpre : pre = ['/'] ∨ pre = ['.', '.', '/'] ∨ pre = ['.', '/'])
    (hc : class1 c = true) (hcs : cs ≠ [])
    (hall : ∀ x ∈ cs, class2 x = true) :
    extract_urls_from_js (String.mk ('"' :: ((pre ++ c :: cs) ++ ('"' :: rest)))) =
      String.mk (pre ++ c :: cs) :: extract_urls_from_js (String.mk rest) := by
  obtain ⟨k, ks, rfl⟩ : ∃ k ks, cs = k :: ks := by
    cases cs with
    | nil => exact absurd rfl hcs
    | cons k ks => exact ⟨k, ks, rfl⟩
  have hslash : slashStart (pre ++ (c :: ((k :: ks) ++ ('"' :: rest)))) = [pre.length] := by
    rcases hpre with rfl | rfl | rfl <;>
      simp [slashStart, strCand, startsList]
  have hone : oneChar class1 (c :: ((k :: ks) ++ ('"' :: rest))) = [1] := by
    show (if class1 c then [1] else []) = [1]
    rw [if_pos hc]
  have hgp : greedyPlus class2 ((k :: ks) ++ ('"' :: rest)) =
      (ks.length + 1) :: countdown ks.length := by
    unfold greedyPlus
    rw [runLen_all_append class2 (k :: ks) '"' rest hall (by decide)]
    rfl
  obtain ⟨J2, v2, hin, hJ2⟩ := seq_decomp (oneChar class1) (greedyPlus class2)
    (c :: ((k :: ks) ++ ('"' :: rest))) [] [] 1 (ks.length + 1) [] (countdown ks.length)
    (by rw [hone]; rfl)
    (by intro x hx; cases hx)
    (by show greedyPlus class2 ((k :: ks) ++ ('"' :: rest)) =
          [] ++ (ks.length + 1) :: countdown ks.length
        rw [hgp]; rfl)
    (by intro y hy; cases hy)
  obtain ⟨J3, v3, hb1, hJ3⟩ := seq_decomp slashStart
    (seqCands (oneChar class1) (greedyPlus class2))
    (pre ++ (c :: ((k :: ks) ++ ('"' :: rest)))) [] J2 pre.length (1 + (ks.length + 1)) [] v2
    (by rw [hslash]; rfl)
    (by intro x hx; cases hx)
    (by rw [List.drop_left]; exact hin)
    (by intro y hy; rw [List.drop_left]; exact hJ2 y hy)
  have hassoc : (pre ++ c :: (k :: ks)) ++ ('"' :: rest) =
      pre ++ (c :: ((k :: ks) ++ ('"' :: rest))) := by simp
  have hlen : pre.length + (1 + (ks.length + 1)) = (pre ++ c :: (k :: ks)).length := by
    simp [List.length_append]
    omega
  have hgc : groupCands ((pre ++ c :: (k :: ks)) ++ ('"' :: rest)) =
      J3 ++ (pre ++ c :: (k :: ks)).length ::
        (v3 ++ (branch2 ((pre ++ c :: (k :: ks)) ++ ('"' :: rest)) ++
          branch3 ((pre ++ c :: (k :: ks)) ++ ('"' :: rest)))) := by
    unfold groupCands branch1
    rw [hassoc, hb1, hlen]
    simp [List.append_assoc]
  exact extract_quoted (pre ++ c :: (k :: ks)) rest J3 _ hgc
    (by intro x hx
        rw [hassoc]
        exact hJ3 x hx)

/-- Witness for C2 (amended) at the spec's example `"/api/v1/users"`. -/
theorem slash_literal_yielded_witness :
    extract_urls_from_js (String.mk ('"' :: ((['/'] ++ 'a' ::
        ['p', 'i', '/', 'v', '1', '/', 'u', 's', 'e', 'r', 's']) ++ ('"' :: [])))) =
      String.mk (['/'] ++ 'a' ::
        ['p', 'i', '/', 'v', '1', '/', 'u', 's', 'e', 'r', 's']) ::
        extract_urls_from_js (String.mk []) :=
  slash_literal_yielded ['/'] 'a' ['p', 'i', '/', 'v', '1', '/', 'u', 's', 'e', 'r', 's'] []
    (Or.inl rfl) (by decide) (by decide) (by decide)

/-! ## Lemmas about the character classes and the other branches -/

lemma wordDash_wordSlash {c : Char} (h : wordDash c = true) : wordSlash c = true := by
  simp only [wordDash, Bool.or_eq_true] at h
  simp only [wordSlash, Bool.or_eq_true]
  tauto

lemma wordDash_ne_slash {c : Char} (h : wordDash c = true) : c ≠ '/' := by
  rintro rfl
  exact absurd h (by decide)

lemma wordDash_ne_dot {c : Char} (h : wordDash c = true) : c ≠ '.' := by
  rintro rfl
  exact absurd h (by decide)

lemma remIntro_not_alpha {c : Char} (h : remIntro c = true) : c.isAlpha = false := by
  simp only [remIntro, Bool.or_eq_true, decide_eq_true_eq] at h
  rcases h with (rfl | rfl) | rfl <;> decide

lemma remIntro_cases {c : Char} (h : remIntro c = true) : c = '?' ∨ c = '|' ∨ c = '/' := by
  simp only [remIntro, Bool.or_eq_true, decide_eq_true_eq] at h
  tauto

lemma head_drop_append (f : List Char) (d : Char) (z : List Char) (x : Nat)
    (hx : x ≤ f.length) :
    ∃ ch t, (f ++ d :: z).drop x = ch :: t ∧ (ch ∈ f ∨ ch = d) := by
  induction f generalizing x with
  | nil =>
    have hx0 : x = 0 := Nat.le_zero.mp hx
    subst hx0
    exact ⟨d, z, rfl, Or.inr rfl⟩
  | cons a t ih =>
    cases x with
    | zero => exact ⟨a, t ++ d :: z, rfl, Or.inl (List.mem_cons_self a t)⟩
    | succ x =>
      obtain ⟨ch, t2, hdrop, hmem⟩ := ih x (Nat.le_of_succ_le_succ hx)
      refine ⟨ch, t2, hdrop, ?_⟩
      rcases hmem with h | h
      · exact Or.inl (List.mem_cons_of_mem a h)
      · exact Or.inr h

lemma strCand_head_ne (w0 : Char) (w : List Char) (s : List Char) (ch : Char)
    (t : List Char) (hs : s = ch :: t) (hne : w0 ≠ ch) : strCand (w0 :: w) s = [] := by
  subst hs
  simp [strCand, startsList, hne]

lemma slashStart_nil (ch : Char) (t : List Char)
    (h1 : ch ≠ '/') (h2 : ch ≠ '.') : slashStart (ch :: t) = [] := by
  rw [slashStart, strCand_head_ne '/' [] _ ch t rfl (Ne.symm h1),
    strCand_head_ne '.' ['.', '/'] _ ch t rfl (Ne.symm h2),
    strCand_head_ne '.' ['/'] _ ch t rfl (Ne.symm h2)]
  rfl

lemma branch1_nil (ch : Char) (t : List Char) (h1 : ch ≠ '/') (h2 : ch ≠ '.') :
    branch1 (ch :: t) = [] := by
  unfold branch1
  exact seqCands_nil_left _ _ _ (slashStart_nil ch t h1 h2)

lemma drop_append_plus {α : Type} (u w : List α) (j : Nat) :
    (u ++ w).drop (u.length + j) = w.drop j := by
  rw [← List.drop_drop, List.drop_left]

lemma branch2_nil_of_word_dot (f : List Char) (z : List Char)
    (hf : ∀ c ∈ f, wordDash c = true) :
    branch2 (f ++ '.' :: z) = [] := by
  unfold branch2
  apply seqCands_nil
  intro x hx
  have hrun : runLen wordSlash (f ++ '.' :: z) = f.length :=
    runLen_all_append wordSlash f '.' z (fun c hc => wordDash_wordSlash (hf c hc)) (by decide)
  have hxb : 1 ≤ x ∧ x ≤ f.length := by
    rw [greedyPlus, hrun] at hx
    exact mem_countdown.mp hx
  obtain ⟨ch, t2, hdrop, hmem⟩ := head_drop_append f '.' z x hxb.2
  apply seqCands_nil_left
  rw [hdrop]
  apply strCand_head_ne '/' [] _ ch t2 rfl
  rcases hmem with h | h
  · exact Ne.symm (wordDash_ne_slash (hf ch h))
  · rw [h]
    decide

lemma seq_head (f g : List Char → List Nat) (s : List Char) (n m : Nat)
    (t u : List Nat) (hf : f s = n :: t) (hg : g (s.drop n) = m :: u) :
    ∃ v, seqCands f g s = (n + m) :: v := by
  unfold seqCands
  rw [hf, List.flatMap_cons, hg, List.map_cons]
  exact ⟨_, rfl⟩

lemma rem2_head (q rest : List Char)
    (hq : q = [] ∨ ∃ ic r, q = ic :: r ∧ remIntro ic = true ∧ ∀ c ∈ r, remChar c = true) :
    ∃ t, rem2 (q ++ '"' :: rest) = q.length :: t := by
  rcases hq with rfl | ⟨ic, r, rfl, hic, hr⟩
  · refine ⟨[], ?_⟩
    unfold rem2
    simp only [List.nil_append]
    rw [seqCands_nil_left _ _ _ (show oneChar remIntro ('"' :: rest) = [] from rfl)]
    rfl
  · have hone : oneChar remIntro ((ic :: r) ++ '"' :: rest) = [1] := by
      show (if remIntro ic then [1] else []) = [1]
      rw [if_pos hic]
    obtain ⟨t2, ht2⟩ := greedyStar_head remChar (r ++ '"' :: rest)
    rw [runLen_all_append remChar r '"' rest hr (by decide)] at ht2
    obtain ⟨v, hv⟩ := seq_head (oneChar remIntro) (greedyStar remChar)
      ((ic :: r) ++ '"' :: rest) 1 r.length [] t2 (by rw [hone]) ht2
    refine ⟨v ++ [0], ?_⟩
    unfold rem2
    rw [hv]
    have hlen : 1 + r.length = (ic :: r).length := by
      simp [Nat.add_comm]
    rw [List.cons_append, hlen]

lemma rem3_head (q rest : List Char)
    (hq : q = [] ∨ ∃ r, q = '?' :: r ∧ ∀ c ∈ r, remChar c = true) :
    ∃ t, rem3 (q ++ '"' :: rest) = q.length :: t := by
  rcases hq with rfl | ⟨r, rfl, hr⟩
  · refine ⟨[], ?_⟩
    unfold rem3
    simp only [List.nil_append]
    rw [seqCands_nil_left _ _ _ (strCand_head_ne '?' [] _ '"' rest rfl (by decide))]
    rfl
  · have hone : strCand ['?'] (('?' :: r) ++ '"' :: rest) = [1] := by
      show strCand ['?'] ('?' :: (r ++ '"' :: rest)) = [1]
      simp [strCand, startsList]
    obtain ⟨t2, ht2⟩ := greedyStar_head remChar (r ++ '"' :: rest)
    rw [runLen_all_append remChar r '"' rest hr (by decide)] at ht2
    obtain ⟨v, hv⟩ := seq_head (strCand ['?']) (greedyStar remChar)
      (('?' :: r) ++ '"' :: rest) 1 r.length [] t2 (by rw [hone]) ht2
    refine ⟨v ++ [0], ?_⟩
    unfold rem3
    rw [hv]
    have hlen : 1 + r.length = ('?' :: r).length := by
      simp [Nat.add_comm]
    rw [List.cons_append, hlen]

lemma extAlt2_head (e : List Char) (d : Char) (ds : List Char)
    (he : ∀ c ∈ e, c.isAlpha = true) (h1 : 1 ≤ e.length) (h4 : e.length ≤ 4)
    (hd : d.isAlpha = false) :
    ∃ t, extAlt2 (e ++ d :: ds) = e.length :: t := by
  unfold extAlt2 greedyAlpha14
  rw [runLen_all_append _ e d ds he hd, min_eq_left h4]
  cases hlen : e.length with
  | zero => omega
  | succ n =>
    refine ⟨countdown n ++ strCand ['a', 'c', 't', 'i', 'o', 'n'] (e ++ d :: ds), ?_⟩
    show ((n + 1) :: countdown n) ++ _ = _
    rw [List.cons_append]

lemma extAlt3_shape (ext q rest : List Char) (hext : ext ∈ extKeywords)
    (hq : q = [] ∨ ∃ r, q = '?' :: r) :
    ∃ junkF t, extAlt3 (ext ++ (q ++ '"' :: rest)) = junkF ++ ext.length :: t ∧
      ∀ x ∈ junkF, rem3 ((ext ++ (q ++ '"' :: rest)).drop x) = [0] ∧
        quoteAt (ext ++ (q ++ '"' :: rest)) x = false := by
  simp only [extKeywords, List.mem_cons, List.not_mem_nil, or_false] at hext
  rcases hext with rfl | rfl | rfl | rfl | rfl | rfl | rfl | rfl | rfl | rfl <;>
    rcases hq with rfl | ⟨r, rfl⟩ <;>
      first
        | exact ⟨[], [], rfl, by simp⟩
        | exact ⟨[], [2], rfl, by simp⟩
        | exact ⟨[3], [], rfl, by
            intro x hx
            rw [List.mem_singleton] at hx
            subst hx
            exact ⟨rfl, rfl⟩⟩

/-! ## Claim theorems for the third grammar shape -/

/-- C4 counterexample: containment of the quoted filename is not sufficient.
The script `"a.php?x|y"` contains the quoted bare filename `a.php` with a
`?`-introduced remainder, yet nothing is yielded, because the remainder
class excludes the pipe so no closing delimiter is ever reached; and in
`"/ab"x.php"` the quoted `x.php` is not yielded because the preceding match
consumes its opening quote. -/
theorem filename_literal_counterexample :
    extract_urls_from_js "\"a.php?x|y\"" = [] ∧
    extract_urls_from_js "\"/ab\"x.php\"" = ["/ab"] := by
  constructor <;> decide

/-- C4 (amended): for a script beginning with a quoted bare filename of word
characters and dashes (nonempty), an extension from the allowlist, and an
optional `?`-introduced query remainder whose characters exclude both quote
characters and the pipe, the scanner yields the filename with its remainder
preserved and without the quotes; in particular `"report.action?id=5"`
yields `report.action?id=5`. -/
theorem filename_literal_yielded (f ext q rest : List Char)
    (hf : f ≠ [] ∧ ∀ c ∈ f, wordDash c = true)
    (hext : ext ∈ extKeywords)
    (hq : q = [] ∨ ∃ r, q = '?' :: r ∧ ∀ c ∈ r, remChar c = true) :
    extract_urls_from_js (String.mk ('"' :: ((f ++ ('.' :: (ext ++ q))) ++ ('"' :: rest)))) =
      String.mk (f ++ ('.' :: (ext ++ q))) :: extract_urls_from_js (String.mk rest) := by
  obtain ⟨k, ks, rfl⟩ : ∃ k ks, f = k :: ks := by
    cases f with
    | nil => exact absurd rfl hf.1
    | cons k ks => exact ⟨k, ks, rfl⟩
  obtain ⟨hfne, hfw⟩ := hf
  -- the extension stage
  obtain ⟨junkE, tE, hE, hEjunk⟩ := extAlt3_shape ext q rest hext
    (by rcases hq with rfl | ⟨r, hr, _⟩
        · exact Or.inl rfl
        · exact Or.inr ⟨r, hr⟩)
  obtain ⟨tR, hR⟩ := rem3_head q rest hq
  obtain ⟨JE, vE, hstageE, hJE⟩ := seq_decomp extAlt3 rem3 (ext ++ (q ++ '"' :: rest))
    junkE [] ext.length q.length tE tR hE
    (by intro x hx
        exact Or.inr ⟨(hEjunk x hx).1, (hEjunk x hx).2⟩)
    (by rw [List.drop_left, hR]; rfl)
    (by intro y hy; cases hy)
  -- the dot stage
  obtain ⟨J3, v3, hstage3, hJ3⟩ := seq_decomp (strCand ['.']) (seqCands extAlt3 rem3)
    ('.' :: (ext ++ (q ++ '"' :: rest))) [] JE 1 (ext.length + q.length) [] vE
    (show strCand ['.'] ('.' :: (ext ++ (q ++ '"' :: rest))) = [] ++ 1 :: [] from rfl)
    (by intro x hx; cases hx)
    hstageE
    hJE
  -- the word stage
  have hrun : runLen wordDash ((k :: ks) ++ '.' :: (ext ++ (q ++ '"' :: rest))) =
      (k :: ks).length :=
    runLen_all_append wordDash (k :: ks) '.' _ hfw (by decide)
  obtain ⟨J2, v2, hb3, hJ2⟩ := seq_decomp (greedyPlus wordDash)
    (seqCands (strCand ['.']) (seqCands extAlt3 rem3))
    ((k :: ks) ++ '.' :: (ext ++ (q ++ '"' :: rest)))
    [] J3 (k :: ks).length (1 + (ext.length + q.length)) (countdown ks.length) v3
    (by rw [greedyPlus, hrun]; rfl)
    (by intro x hx; cases hx)
    (by rw [List.drop_left]; exact hstage3)
    (by intro y hy
        rw [List.drop_left]
        exact hJ3 y hy)
  -- assemble the group candidates
  have hassoc : ((k :: ks) ++ ('.' :: (ext ++ q))) ++ ('"' :: rest) =
      (k :: ks) ++ '.' :: (ext ++ (q ++ '"' :: rest)) := by
    simp
  have hcons : (k :: ks) ++ '.' :: (ext ++ (q ++ '"' :: rest)) =
      k :: (ks ++ '.' :: (ext ++ (q ++ '"' :: rest))) := rfl
  have hb1 : branch1 ((k :: ks) ++ '.' :: (ext ++ (q ++ '"' :: rest))) = [] := by
    rw [hcons]
    exact branch1_nil k _
      (wordDash_ne_slash (hfw k (List.mem_cons_self k ks)))
      (wordDash_ne_dot (hfw k (List.mem_cons_self k ks)))
  have hb2 : branch2 ((k :: ks) ++ '.' :: (ext ++ (q ++ '"' :: rest))) = [] :=
    branch2_nil_of_word_dot (k :: ks) _ hfw
  have hlen : (k :: ks).length + (1 + (ext.length + q.length)) =
      ((k :: ks) ++ ('.' :: (ext ++ q))).length := by
    simp [List.length_append]
    omega
  have hgc : groupCands (((k :: ks) ++ ('.' :: (ext ++ q))) ++ ('"' :: rest)) =
      J2 ++ ((k :: ks) ++ ('.' :: (ext ++ q))).length :: v2 := by
    unfold groupCands branch3
    rw [hassoc, hb1, hb2, hb3, hlen]
    rfl
  exact extract_quoted ((k :: ks) ++ ('.' :: (ext ++ q))) rest J2 v2 hgc
    (by intro x hx
        rw [hassoc]
        exact hJ2 x hx)

/-- Witness for C4 (amended) at the spec's example `"report.action?id=5"`. -/
theorem filename_literal_yielded_witness :
    extract_urls_from_js (String.mk ('"' :: ((['r', 'e', 'p', 'o', 'r', 't'] ++
        ('.' :: (['a', 'c', 't', 'i', 'o', 'n'] ++ ('?' :: ['i', 'd', '=', '5'])))) ++
        ('"' :: [])))) =
      String.mk (['r', 'e', 'p', 'o', 'r', 't'] ++
        ('.' :: (['a', 'c', 't', 'i', 'o', 'n'] ++ ('?' :: ['i', 'd', '=', '5'])))) ::
        extract_urls_from_js (String.mk []) :=
  filename_literal_yielded ['r', 'e', 'p', 'o', 'r', 't'] ['a', 'c', 't', 'i', 'o', 'n']
    ('?' :: ['i', 'd', '=', '5']) []
    ⟨by decide, by decide⟩ (by decide)
    (Or.inr ⟨['i', 'd', '=', '5'], rfl, by decide⟩)

/-! ## Claim theorems for the second grammar shape -/

/-- C3 counterexample: in grammar shape 2 the query remainder is not
introduced only by `?`. The script `"a/b.php/x"` yields the full candidate
`a/b.php/x`, in which the part after the dot-extension `php` is a remainder
introduced by the character `/` (the introducer class is `[\?|/]`). -/
theorem query_introducer_counterexample :
    extract_urls_from_js "\"a/b.php/x\"" = ["a/b.php/x"] ∧
    "a/b.php/x".data = ('a' :: '/' :: 'b' :: '.' :: ['p', 'h', 'p']) ++ ('/' :: ['x']) := by
  constructor <;> decide

/-- C3 (amended): in grammar shape 2 a match ends at its dot-extension of
one to four letters or the literal word `action` unless a remainder
follows, and the remainder may be introduced by any of the three characters
`?`, `|`, `/` of the class on line 99, its body drawn from `remChar`: for a
script beginning with such a quoted literal (word/dash segments around one
slash), the whole literal including the remainder is yielded. -/
theorem relative_path_yielded (a b e q rest : List Char)
    (ha : a ≠ [] ∧ ∀ c ∈ a, wordDash c = true)
    (hb : b ≠ [] ∧ ∀ c ∈ b, wordDash c = true)
    (he : ((∀ c ∈ e, c.isAlpha = true) ∧ 1 ≤ e.length ∧ e.length ≤ 4) ∨
      e = ['a', 'c', 't', 'i', 'o', 'n'])
    (hq : q = [] ∨ ∃ ic r, q = ic :: r ∧ remIntro ic = true ∧ ∀ c ∈ r, remChar c = true) :
    extract_urls_from_js (String.mk ('"' ::
        ((a ++ ('/' :: (b ++ ('.' :: (e ++ q))))) ++ ('"' :: rest)))) =
      String.mk (a ++ ('/' :: (b ++ ('.' :: (e ++ q))))) ::
        extract_urls_from_js (String.mk rest) := by
  -- stage 4: the extension and remainder of the second alternative
  have hstage4 : ∃ J4 v4,
      seqCands extAlt2 rem2 (e ++ (q ++ '"' :: rest)) =
        J4 ++ (e.length + q.length) :: v4 ∧
      ∀ y ∈ J4, quoteAt (e ++ (q ++ '"' :: rest)) y = false := by
    obtain ⟨tR, hR⟩ := rem2_head q rest hq
    rcases he with ⟨healpha, h1, h4⟩ | rfl
    · obtain ⟨d, ds, hdds, hd⟩ : ∃ d ds, q ++ '"' :: rest = d :: ds ∧ d.isAlpha = false := by
        rcases hq with rfl | ⟨ic, r, rfl, hic, _⟩
        · exact ⟨'"', rest, rfl, by decide⟩
        · exact ⟨ic, r ++ '"' :: rest, rfl, remIntro_not_alpha hic⟩
      obtain ⟨tE, hE⟩ := extAlt2_head e d ds healpha h1 h4 hd
      rw [← hdds] at hE
      exact seq_decomp extAlt2 rem2 (e ++ (q ++ '"' :: rest)) [] [] e.length q.length tE tR
        (by rw [hE]; rfl)
        (by intro x hx; cases hx)
        (by rw [List.drop_left, hR]; rfl)
        (by intro y hy; cases hy)
    · have hjunkfacts : ∀ x ∈ [4, 3, 2, 1],
          rem2 ((['a', 'c', 't', 'i', 'o', 'n'] ++ (q ++ '"' :: rest)).drop x) = [0] ∧
          quoteAt (['a', 'c', 't', 'i', 'o', 'n'] ++ (q ++ '"' :: rest)) x = false := by
        rcases hq with rfl | ⟨ic, r, rfl, hic, _⟩
        · intro x hx
          rcases (by simpa using hx : x = 4 ∨ x = 3 ∨ x = 2 ∨ x = 1) with
            rfl | rfl | rfl | rfl <;> exact ⟨rfl, rfl⟩
        · rcases remIntro_cases hic with rfl | rfl | rfl <;>
          · intro x hx
            rcases (by simpa using hx : x = 4 ∨ x = 3 ∨ x = 2 ∨ x = 1) with
              rfl | rfl | rfl | rfl <;> exact ⟨rfl, rfl⟩
      have hEact : extAlt2 (['a', 'c', 't', 'i', 'o', 'n'] ++ (q ++ '"' :: rest)) =
          [4, 3, 2, 1] ++ (['a', 'c', 't', 'i', 'o', 'n'] : List Char).length :: [] := by
        rcases hq with rfl | ⟨ic, r, rfl, hic, _⟩
        · rfl
        · rcases remIntro_cases hic with rfl | rfl | rfl <;> rfl
      exact seq_decomp extAlt2 rem2 (['a', 'c', 't', 'i', 'o', 'n'] ++ (q ++ '"' :: rest))
        [4, 3, 2, 1] [] (['a', 'c', 't', 'i', 'o', 'n'] : List Char).length q.length [] tR
        hEact
        (fun x hx => Or.inr (hjunkfacts x hx))
        (by rw [List.drop_left, hR]; rfl)
        (by intro y hy; cases hy)
  obtain ⟨J4, v4, hstage4e, hJ4⟩ := hstage4
  -- stage 3: the literal dot
  obtain ⟨J3, v3, hstage3, hJ3⟩ := seq_decomp (strCand ['.']) (seqCands extAlt2 rem2)
    ('.' :: (e ++ (q ++ '"' :: rest))) [] J4 1 (e.length + q.length) [] v4
    rfl
    (by intro x hx; cases hx)
    hstage4e
    hJ4
  -- stage 2: the resource-name segment
  obtain ⟨kb, kbs, rfl⟩ : ∃ kb kbs, b = kb :: kbs := by
    cases b with
    | nil => exact absurd rfl hb.1
    | cons kb kbs => exact ⟨kb, kbs, rfl⟩
  have hrunb : runLen wordSlash ((kb :: kbs) ++ ('.' :: (e ++ (q ++ '"' :: rest)))) =
      (kb :: kbs).length :=
    runLen_all_append wordSlash (kb :: kbs) '.' _
      (fun c hc => wordDash_wordSlash (hb.2 c hc)) (by decide)
  obtain ⟨J2s, v2s, hstage2, hJ2s⟩ := seq_decomp (greedyPlus wordSlash)
    (seqCands (strCand ['.']) (seqCands extAlt2 rem2))
    ((kb :: kbs) ++ ('.' :: (e ++ (q ++ '"' :: rest)))) [] J3 (kb :: kbs).length
    (1 + (e.length + q.length)) (countdown kbs.length) v3
    (by rw [greedyPlus, hrunb]; rfl)
    (by intro x hx; cases hx)
    (by rw [List.drop_left]; exact hstage3)
    (by intro y hy; rw [List.drop_left]; exact hJ3 y hy)
  -- stage 1: the literal slash
  obtain ⟨J1, v1, hstage1, hJ1⟩ := seq_decomp (strCand ['/'])
    (seqCands (greedyPlus wordSlash) (seqCands (strCand ['.']) (seqCands extAlt2 rem2)))
    ('/' :: ((kb :: kbs) ++ ('.' :: (e ++ (q ++ '"' :: rest))))) [] J2s 1
    ((kb :: kbs).length + (1 + (e.length + q.length))) [] v2s
    rfl
    (by intro x hx; cases hx)
    hstage2
    hJ2s
  -- stage 0: the first segment, whose longer greedy candidates all die
  obtain ⟨ka, kas, rfl⟩ : ∃ ka kas, a = ka :: kas := by
    cases a with
    | nil => exact absurd rfl ha.1
    | cons ka kas => exact ⟨ka, kas, rfl⟩
  have hws : ∀ c ∈ (ka :: kas) ++ '/' :: (kb :: kbs), wordSlash c = true := by
    intro c hc
    rcases List.mem_append.mp hc with h | h
    · exact wordDash_wordSlash (ha.2 c h)
    · rcases List.mem_cons.mp h with rfl | h2
      · decide
      · exact wordDash_wordSlash (hb.2 c h2)
  have hassoc0 : (ka :: kas) ++ ('/' :: ((kb :: kbs) ++ ('.' :: (e ++ (q ++ '"' :: rest))))) =
      ((ka :: kas) ++ '/' :: (kb :: kbs)) ++ ('.' :: (e ++ (q ++ '"' :: rest))) := by
    simp
  have hrun0 : runLen wordSlash
      ((ka :: kas) ++ ('/' :: ((kb :: kbs) ++ ('.' :: (e ++ (q ++ '"' :: rest)))))) =
      (ka :: kas).length + ((kb :: kbs).length + 1) := by
    rw [hassoc0,
      runLen_all_append wordSlash ((ka :: kas) ++ '/' :: (kb :: kbs)) '.' _ hws (by decide)]
    simp [List.length_append]
    omega
  obtain ⟨preJ, hsplit, hpremem⟩ := countdown_split (ka :: kas).length ((kb :: kbs).length + 1)
  have hdead : ∀ x ∈ preJ,
      seqCands (strCand ['/'])
        (seqCands (greedyPlus wordSlash) (seqCands (strCand ['.']) (seqCands extAlt2 rem2)))
        (((ka :: kas) ++ ('/' :: ((kb :: kbs) ++ ('.' :: (e ++ (q ++ '"' :: rest)))))).drop x)
        = [] := by
    intro x hx
    obtain ⟨hlow, hhigh⟩ := hpremem x hx
    have hx2 : x = ((ka :: kas) ++ ['/']).length + (x - ((ka :: kas).length + 1)) := by
      simp at hlow hhigh ⊢
      omega
    have hsplit2 : (ka :: kas) ++ ('/' :: ((kb :: kbs) ++ ('.' :: (e ++ (q ++ '"' :: rest))))) =
        ((ka :: kas) ++ ['/']) ++ ((kb :: kbs) ++ ('.' :: (e ++ (q ++ '"' :: rest)))) := by
      simp
    rw [hsplit2, hx2, drop_append_plus]
    obtain ⟨ch, t2, hdrop, hmem⟩ := head_drop_append (kb :: kbs) '.'
      (e ++ (q ++ '"' :: rest)) (x - ((ka :: kas).length + 1))
      (by simp at hlow hhigh ⊢; omega)
    apply seqCands_nil_left
    rw [hdrop]
    apply strCand_head_ne '/' [] _ ch t2 rfl
    rcases hmem with h | h
    · exact Ne.symm (wordDash_ne_slash (hb.2 ch h))
    · rw [h]
      decide
  obtain ⟨J0, v0, hb2, hJ0⟩ := seq_decomp (greedyPlus wordSlash)
    (seqCands (strCand ['/'])
      (seqCands (greedyPlus wordSlash) (seqCands (strCand ['.']) (seqCands extAlt2 rem2))))
    ((ka :: kas) ++ ('/' :: ((kb :: kbs) ++ ('.' :: (e ++ (q ++ '"' :: rest))))))
    preJ J1 (ka :: kas).length
    (1 + ((kb :: kbs).length + (1 + (e.length + q.length)))) (countdown kas.length) v1
    (by rw [greedyPlus, hrun0, hsplit]; rfl)
    (fun x hx => Or.inl (hdead x hx))
    (by rw [List.drop_left]; exact hstage1)
    (by intro y hy; rw [List.drop_left]; exact hJ1 y hy)
  -- assemble
  have hassoc : ((ka :: kas) ++ ('/' :: ((kb :: kbs) ++ ('.' :: (e ++ q))))) ++ ('"' :: rest) =
      (ka :: kas) ++ ('/' :: ((kb :: kbs) ++ ('.' :: (e ++ (q ++ '"' :: rest))))) := by
    simp
  have hcons : (ka :: kas) ++ ('/' :: ((kb :: kbs) ++ ('.' :: (e ++ (q ++ '"' :: rest))))) =
      ka :: (kas ++ ('/' :: ((kb :: kbs) ++ ('.' :: (e ++ (q ++ '"' :: rest)))))) := rfl
  have hb1 : branch1
      ((ka :: kas) ++ ('/' :: ((kb :: kbs) ++ ('.' :: (e ++ (q ++ '"' :: rest)))))) = [] := by
    rw [hcons]
    exact branch1_nil ka _
      (wordDash_ne_slash (ha.2 ka (List.mem_cons_self ka kas)))
      (wordDash_ne_dot (ha.2 ka (List.mem_cons_self ka kas)))
  have hlen : (ka :: kas).length + (1 + ((kb :: kbs).length + (1 + (e.length + q.length)))) =
      ((ka :: kas) ++ ('/' :: ((kb :: kbs) ++ ('.' :: (e ++ q))))).length := by
    simp [List.length_append]
    omega
  have hgc : groupCands
      (((ka :: kas) ++ ('/' :: ((kb :: kbs) ++ ('.' :: (e ++ q))))) ++ ('"' :: rest)) =
      J0 ++ ((ka :: kas) ++ ('/' :: ((kb :: kbs) ++ ('.' :: (e ++ q))))).length ::
        (v0 ++ branch3
          ((ka :: kas) ++ ('/' :: ((kb :: kbs) ++ ('.' :: (e ++ (q ++ '"' :: rest))))))) := by
    unfold groupCands branch2
    rw [hassoc, hb1, hb2, hlen]
    simp [List.append_assoc]
  exact extract_quoted ((ka :: kas) ++ ('/' :: ((kb :: kbs) ++ ('.' :: (e ++ q))))) rest J0 _
    hgc
    (by intro x hx
        rw [hassoc]
        exact hJ0 x hx)

/-- Witness for C3 (amended) with a pipe-introduced remainder:
`"a/b.html|zz"` yields `a/b.html|zz`. -/
theorem relative_path_yielded_witness :
    extract_urls_from_js (String.mk ('"' :: ((['a'] ++ ('/' :: (['b'] ++
        ('.' :: (['h', 't', 'm', 'l'] ++ ('|' :: ['z', 'z'])))))) ++ ('"' :: [])))) =
      String.mk (['a'] ++ ('/' :: (['b'] ++
        ('.' :: (['h', 't', 'm', 'l'] ++ ('|' :: ['z', 'z'])))))) ::
        extract_urls_from_js (String.mk []) :=
  relative_path_yielded ['a'] ['b'] ['h', 't', 'm', 'l'] ('|' :: ['z', 'z']) []
    ⟨by decide, by decide⟩ ⟨by decide, by decide⟩
    (Or.inl ⟨by decide, by decide, by decide⟩)
    (Or.inr ⟨'|', ['z', 'z'], rfl, by decide, by decide⟩)

end ApiFinder
